import Mathlib

/-!
Verification of the DocAI ingestion-and-retrieval engine against its
natural-language specification.

The development shallowly embeds the two core source modules:

* `src/github_ingestion.py` — the structural code extractor
  (`GitHubIngestion.parse_python_file` and its `_extract_function`,
  `_extract_class`, `_extract_method`, `_get_line_numbers`,
  `_extract_source_code`, `_extract_docstring` helpers), and
* `src/app/core/rag_pipeline.py` — the RAG pipeline
  (`RAGPipeline.query` including its source-reference formatting, and the
  metadata-assembly part of `RAGPipeline.process_document`).

Python dictionaries are embedded as ordered association lists with
Python-dict insertion semantics; the Python `ast` syntax tree is embedded
as an inductive type carrying exactly the fields the extractor reads
(`name`, `args.args`, `decorator_list`, `lineno`, `end_lineno`, the
`ast.get_docstring` result, and the statement body); `ast.walk` is the
breadth-first traversal it performs.  External capabilities (the language
model backend, file loaders) are arguments of the embedded functions.
-/

namespace DocAI

/-- A scalar/array metadata value as stored in a chunk metadata dict. -/
inductive MVal where
  | str (s : String)
  | nat (n : Nat)
  | bool (b : Bool)
  | strList (l : List String)
deriving DecidableEq, Repr

/-- A Python dict with string keys, embedded as an ordered association list
(first occurrence of a key is the binding, as dicts never hold duplicates). -/
abbrev Metadata := List (String × MVal)

/-- `d.get(k)` / `d[k]` read access: value at the first occurrence of `k`. -/
def metaGet : Metadata → String → Option MVal
  | [], _ => none
  | (k0, v0) :: rest, k => if k0 = k then some v0 else metaGet rest k

/-- `d[k] = v`: replace the binding of `k` in place if present, else append. -/
def metaSet : Metadata → String → MVal → Metadata
  | [], k, v => [(k, v)]
  | (k0, v0) :: rest, k, v =>
      if k0 = k then (k, v) :: rest else (k0, v0) :: metaSet rest k v

/-- `d.update(u)`: assign every binding of `u` into `d`, in order. -/
def metaUpdate (d u : Metadata) : Metadata :=
  u.foldl (fun acc kv => metaSet acc kv.1 kv.2) d

/-- A LangChain `Document`: page content plus a metadata dict. -/
structure Document where
  page_content : String
  metadata : Metadata
deriving DecidableEq, Repr

/-! ## The embedded Python syntax tree

Exactly the shape `parse_python_file` inspects: `ast.FunctionDef`,
`ast.ClassDef` and `ast.Assign` statements are distinguished; every other
statement kind is `other`, which still carries the nested statements that
`ast.walk` would keep traversing (bodies of `if`/`try`/`with`, ...). -/

/-- A decorator expression: an `ast.Name` (the only kind the extractor
inspects) or anything else. -/
inductive Deco where
  | name (id : String)
  | other
deriving DecidableEq, Repr

/-- A base-class expression of a `ClassDef`: `ast.Name`; an
`ast.Attribute` whose value is a name; an `ast.Attribute` whose value is
not a name (reading `base.value.id` on it raises `AttributeError`); or any
other expression kind. -/
inductive PyBase where
  | name (id : String)
  | attr (valueId : String) (attr : String)
  | attrOther
  | other
deriving DecidableEq, Repr

/-- An assignment target: an `ast.Name` or anything else. -/
inductive PyTarget where
  | name (id : String)
  | other
deriving DecidableEq, Repr

/-- A Python statement, carrying the fields read by the extractor.
`docstring` is the result of `ast.get_docstring` on the node
(`none` when the body does not start with a string constant). -/
inductive PyStmt where
  | functionDef (name : String) (args : List String) (decorator_list : List Deco)
      (lineno : Nat) (end_lineno : Option Nat) (docstring : Option String)
      (body : List PyStmt)
  | classDef (name : String) (bases : List PyBase)
      (lineno : Nat) (end_lineno : Option Nat) (docstring : Option String)
      (body : List PyStmt)
  | assign (targets : List PyTarget) (lineno : Nat) (end_lineno : Option Nat)
  | other (children : List PyStmt)

/-- The child statements `ast.walk` keeps traversing below a statement. -/
def PyStmt.children : PyStmt → List PyStmt
  | .functionDef _ _ _ _ _ _ b => b
  | .classDef _ _ _ _ _ b => b
  | .assign _ _ _ => []
  | .other cs => cs

mutual

/-- Number of embedded statements in a statement (for termination of walks). -/
def PyStmt.size : PyStmt → Nat
  | .functionDef _ _ _ _ _ _ b => PyStmt.sizeList b + 1
  | .classDef _ _ _ _ _ b => PyStmt.sizeList b + 1
  | .assign _ _ _ => 1
  | .other cs => PyStmt.sizeList cs + 1

/-- Number of embedded statements in a statement list. -/
def PyStmt.sizeList : List PyStmt → Nat
  | [] => 0
  | s :: ss => PyStmt.size s + PyStmt.sizeList ss

end

theorem PyStmt.sizeList_append (a b : List PyStmt) :
    PyStmt.sizeList (a ++ b) = PyStmt.sizeList a + PyStmt.sizeList b := by
  induction a with
  | nil => simp [PyStmt.sizeList]
  | cons s ss ih => simp [PyStmt.sizeList, ih]; omega

theorem PyStmt.sizeList_children_lt (s : PyStmt) :
    PyStmt.sizeList s.children < PyStmt.size s := by
  cases s <;> simp [PyStmt.children, PyStmt.size, PyStmt.sizeList]

theorem PyStmt.sizeList_walk_step (n : PyStmt) (rest : List PyStmt) :
    PyStmt.sizeList (rest ++ n.children) < PyStmt.sizeList (n :: rest) := by
  simp only [PyStmt.sizeList, PyStmt.sizeList_append]
  have := PyStmt.sizeList_children_lt n
  omega

/-- `ast.walk`: breadth-first traversal over all statements, starting from a
queue of statements (for a module, its body). -/
def walkAux : List PyStmt → List PyStmt
  | [] => []
  | n :: rest => n :: walkAux (rest ++ n.children)
  termination_by q => PyStmt.sizeList q
  decreasing_by
    exact PyStmt.sizeList_walk_step _ _

/-! ## The structural code extractor (`GitHubIngestion`) -/

/-- Python `str.splitlines` restricted to `\n` separators (sufficient for the
embedded contents): split on newlines, with no trailing empty line. -/
def pySplitlines (s : String) : List String :=
  let parts := s.splitOn "\n"
  match parts.getLast? with
  | some "" => parts.dropLast
  | _ => parts

/-- `GitHubIngestion._get_line_numbers`: start line is `lineno` (`0` when the
node has none — never the case for the embedded statements), end line is
`end_lineno`, falling back to the start line when absent or falsy (`0`). -/
def get_line_numbers (lineno : Nat) (end_lineno : Option Nat) : Nat × Nat :=
  let start_line := lineno
  let e := end_lineno.getD start_line
  (start_line, if e = 0 then start_line else e)

/-- `GitHubIngestion._extract_source_code`: the slice of the content between
the node start and end lines (1-based, inclusive), rejoined with newlines. -/
def extract_source_code (lineno : Nat) (end_lineno : Option Nat)
    (content : String) : String :=
  let se := get_line_numbers lineno end_lineno
  let lines := pySplitlines content
  let start_idx := se.1 - 1
  let end_idx := min lines.length se.2
  String.intercalate "\n" ((lines.drop start_idx).take (end_idx - start_idx))

/-- `GitHubIngestion._extract_docstring`: strip the `ast.get_docstring`
result, mapping a falsy (empty) docstring to `none`. -/
def extract_docstring : Option String → Option String
  | none => none
  | some d => if d = "" then none else some d.trim

/-- `GitHubIngestion._extract_function`: the `Document` built for a function
definition node. -/
def extract_function (name : String) (args : List String)
    (lineno : Nat) (end_lineno : Option Nat) (docstring : Option String)
    (content file_path relative_path : String) : Document :=
  let start_line := (get_line_numbers lineno end_lineno).1
  let end_line := (get_line_numbers lineno end_lineno).2
  let source_code := extract_source_code lineno end_lineno content
  let doc := extract_docstring docstring
  let signature := "def " ++ name ++ "(" ++ String.intercalate ", " args ++ ")"
  { page_content :=
      "Function: " ++ name ++ "\n\n" ++ "Signature: " ++ signature ++ "\n\n"
        ++ (match doc with
            | some d => "Docstring:\n" ++ d ++ "\n\n"
            | none => "")
        ++ "Source Code:\n" ++ source_code,
    metadata := [
      ("source", .str file_path),
      ("relative_path", .str relative_path),
      ("source_type", .str "code"),
      ("code_type", .str "function"),
      ("function_name", .str name),
      ("start_line", .nat start_line),
      ("end_line", .nat end_line),
      ("has_docstring", .bool doc.isSome),
      ("github_link", .str (relative_path ++ "#L" ++ toString start_line
          ++ "-L" ++ toString end_line))] }

/-- Rendering of one base-class expression inside `_extract_class`:
an `ast.Name` contributes its id, a name-valued `ast.Attribute` contributes
`value.attr`, any other `ast.Attribute` raises `AttributeError` at
`base.value.id`, and every other expression kind is skipped. -/
def renderBase : PyBase → Except Unit (Option String)
  | .name id => .ok (some id)
  | .attr v a => .ok (some (v ++ "." ++ a))
  | .attrOther => .error ()
  | .other => .ok none

/-- The `bases` loop of `_extract_class`: collect the rendered base names
in order, propagating the first raised `AttributeError`. -/
def collectBases : List PyBase → Except Unit (List String)
  | [] => .ok []
  | b :: rest =>
      match renderBase b with
      | .error e => .error e
      | .ok none => collectBases rest
      | .ok (some s) =>
          match collectBases rest with
          | .error e => .error e
          | .ok rs => .ok (s :: rs)

/-- The `ast.Name` targets of an `ast.Assign` statement (class attributes). -/
def assignTargets : PyStmt → List String
  | .assign targets _ _ =>
      targets.filterMap (fun t => match t with
        | .name id => some id
        | .other => none)
  | _ => []

/-- Names of the function definitions directly in a class body, in order. -/
def directMethodNames (body : List PyStmt) : List String :=
  body.filterMap (fun s => match s with
    | .functionDef n _ _ _ _ _ _ => some n
    | _ => none)

/-- The `Document` that `GitHubIngestion._extract_class` builds for a class
definition node once its base names rendered without error. -/
def extract_class_doc (name : String) (baseNames : List String)
    (lineno : Nat) (end_lineno : Option Nat) (docstring : Option String)
    (body : List PyStmt) (content file_path relative_path : String) : Document :=
  let start_line := (get_line_numbers lineno end_lineno).1
  let end_line := (get_line_numbers lineno end_lineno).2
  let source_code := extract_source_code lineno end_lineno content
  let doc := extract_docstring docstring
  let class_attrs := body.flatMap assignTargets
  let methods := directMethodNames body
  { page_content :=
      "Class: " ++ name ++ "\n\n"
        ++ (if baseNames ≠ [] then
              "Inherits from: " ++ String.intercalate ", " baseNames ++ "\n\n"
            else "")
        ++ (match doc with
            | some d => "Docstring:\n" ++ d ++ "\n\n"
            | none => "")
        ++ (if class_attrs ≠ [] then
              "Class attributes: " ++ String.intercalate ", " class_attrs ++ "\n\n"
            else "")
        ++ (if methods ≠ [] then
              "Methods: " ++ String.intercalate ", " methods ++ "\n\n"
            else "")
        ++ "Source Code:\n" ++ source_code,
    metadata := [
      ("source", .str file_path),
      ("relative_path", .str relative_path),
      ("source_type", .str "code"),
      ("code_type", .str "class"),
      ("class_name", .str name),
      ("start_line", .nat start_line),
      ("end_line", .nat end_line),
      ("has_docstring", .bool doc.isSome),
      ("methods", .strList methods),
      ("github_link", .str (relative_path ++ "#L" ++ toString start_line
          ++ "-L" ++ toString end_line))] }

/-- `GitHubIngestion._extract_class`: render the base names (which can
raise `AttributeError` on an `ast.Attribute` base over a non-name), then
build the class `Document`. -/
def extract_class (name : String) (bases : List PyBase)
    (lineno : Nat) (end_lineno : Option Nat) (docstring : Option String)
    (body : List PyStmt) (content file_path relative_path : String) :
    Except Unit Document :=
  match collectBases bases with
  | .error e => .error e
  | .ok baseNames =>
      .ok (extract_class_doc name baseNames lineno end_lineno docstring body
        content file_path relative_path)

/-- One step of the decorator loop in `_extract_method`: an `ast.Name`
decorator with a recognized id overwrites the running method type. -/
def decoStep (acc : String) : Deco → String
  | .name id =>
      if id = "staticmethod" then "static_method"
      else if id = "classmethod" then "class_method"
      else if id = "property" then "property"
      else acc
  | .other => acc

/-- The method-kind classification in `_extract_method`: a first parameter
named `self` or `cls` decides first; only otherwise are the decorators
scanned (in order, each recognized one overwriting the result). -/
def method_type_of (args : List String) (decorator_list : List Deco) : String :=
  match args with
  | a :: _ =>
      if a = "self" then "instance_method"
      else if a = "cls" then "class_method"
      else decorator_list.foldl decoStep "instance_method"
  | [] => decorator_list.foldl decoStep "instance_method"

/-- `GitHubIngestion._extract_method`: the `Document` built for a function
definition directly in a class body. -/
def extract_method (name : String) (args : List String)
    (decorator_list : List Deco) (class_name : String)
    (lineno : Nat) (end_lineno : Option Nat) (docstring : Option String)
    (content file_path relative_path : String) : Document :=
  let start_line := (get_line_numbers lineno end_lineno).1
  let end_line := (get_line_numbers lineno end_lineno).2
  let source_code := extract_source_code lineno end_lineno content
  let doc := extract_docstring docstring
  let signature := "def " ++ name ++ "(" ++ String.intercalate ", " args ++ ")"
  let method_type := method_type_of args decorator_list
  { page_content :=
      "Method: " ++ class_name ++ "." ++ name ++ "\n\n"
        ++ "Type: " ++ method_type ++ "\n\n"
        ++ "Signature: " ++ signature ++ "\n\n"
        ++ (match doc with
            | some d => "Docstring:\n" ++ d ++ "\n\n"
            | none => "")
        ++ "Source Code:\n" ++ source_code,
    metadata := [
      ("source", .str file_path),
      ("relative_path", .str relative_path),
      ("source_type", .str "code"),
      ("code_type", .str "method"),
      ("method_name", .str name),
      ("class_name", .str class_name),
      ("method_type", .str method_type),
      ("start_line", .nat start_line),
      ("end_line", .nat end_line),
      ("has_docstring", .bool doc.isSome),
      ("github_link", .str (relative_path ++ "#L" ++ toString start_line
          ++ "-L" ++ toString end_line))] }

/-- The method chunk built for one item of a class body, when the item is a
function definition (the inner loop of the `ClassDef` branch). -/
def methodDocOf (class_name content file_path relative_path : String) :
    PyStmt → Option Document
  | .functionDef mn margs mdecos ml me mds _ =>
      some (extract_method mn margs mdecos class_name ml me mds
        content file_path relative_path)
  | _ => none

/-- The documents the walk loop of `parse_python_file` appends for one
visited node: a function chunk for every `FunctionDef`, and for every
`ClassDef` a class chunk followed by one method chunk per `FunctionDef`
directly in its body.  An `AttributeError` raised while building the class
chunk escapes as `Except.error` before anything from the node is
appended. -/
def emitFor (content file_path relative_path : String) :
    PyStmt → Except Unit (List Document)
  | .functionDef n args _ l e ds _ =>
      .ok [extract_function n args l e ds content file_path relative_path]
  | .classDef n bases l e ds body =>
      match extract_class n bases l e ds body content file_path
          relative_path with
      | .error e2 => .error e2
      | .ok cdoc =>
          .ok (cdoc :: body.filterMap
            (methodDocOf n content file_path relative_path))
  | _ => .ok []

/-- The documents a single node contributes to the output (none when its
class chunk raised). -/
def emitDocs (content file_path relative_path : String) (s : PyStmt) :
    List Document :=
  match emitFor content file_path relative_path s with
  | .ok docs => docs
  | .error _ => []

/-- The walk loop of `parse_python_file` over the (already walked) node
sequence: append each node's documents, but an exception raised on a node
escapes to the outer handler, which returns the documents collected so
far — the rest of the walk emits nothing. -/
def emitAll (content file_path relative_path : String) :
    List PyStmt → List Document
  | [] => []
  | s :: rest =>
      match emitFor content file_path relative_path s with
      | .ok docs => docs ++ emitAll content file_path relative_path rest
      | .error _ => []

/-- `GitHubIngestion.parse_python_file`, given the outcome of `ast.parse` on
the file content (`Except.error` embeds a raised `SyntaxError` with its
string rendering): on success, walk the tree and emit chunks, truncating at
a node whose class chunk raises; on a syntax error, emit the single
whole-file fallback chunk. -/
def parse_python_file (parsed : Except String (List PyStmt))
    (content file_path relative_path : String) : List Document :=
  match parsed with
  | .ok tree => emitAll content file_path relative_path (walkAux tree)
  | .error e =>
      [{ page_content := content,
         metadata := [
           ("source", .str file_path),
           ("relative_path", .str relative_path),
           ("source_type", .str "code"),
           ("code_type", .str "python_file"),
           ("parsing_error", .str e)] }]

/-! ## The RAG pipeline (`RAGPipeline`) -/

/-- Python `os.path.basename` for POSIX paths: the part after the last
slash. -/
def basename (p : String) : String :=
  ⟨(p.data.reverse.takeWhile (fun ch => ch ≠ '/')).reverse⟩

/-- Whether `pat` is a prefix of `s` (over character lists). -/
def listIsPrefix : List Char → List Char → Bool
  | [], _ => true
  | _ :: _, [] => false
  | a :: as, b :: bs => a = b && listIsPrefix as bs

/-- Whether `pat` occurs somewhere in `s` (over character lists). -/
def listSearch (pat : List Char) : List Char → Bool
  | [] => listIsPrefix pat []
  | c :: rest => listIsPrefix pat (c :: rest) || listSearch pat rest

/-- Python `pat in s` substring containment. -/
def pyContains (s pat : String) : Bool :=
  listSearch pat.data s.data

/-- Python `s.endswith(suffix)`. -/
def pyEndsWith (s suffix : String) : Bool :=
  listIsPrefix suffix.data.reverse s.data.reverse

/-- The `.git`-stripping step of the link reconstruction in
`RAGPipeline.query`: `repo_url[:-4]` when the url ends with `.git`. -/
def strip_git (u : String) : String :=
  if pyEndsWith u ".git" then ⟨u.data.take (u.data.length - 4)⟩ else u

/-- The branch used in the reconstructed link:
`doc.metadata.get("branch", "main")`. -/
def branchOf (m : Metadata) : String :=
  match metaGet m "branch" with
  | some (MVal.str b) => b
  | _ => "main"

/-- A formatted source reference as assembled by `RAGPipeline.query`:
the `source_info` dict with keys `content`, `metadata` and — only when
set — `github_url`. -/
structure SourceInfo where
  content : String
  metadata : Metadata
  github_url : Option String
deriving DecidableEq, Repr

/-- The per-document source-formatting loop body of `RAGPipeline.query`:
for a retrieved chunk of `source_type = "code"` carrying truthy
`github_link` and `repo_url` metadata, reconstruct an absolute link by
stripping a trailing `.git` from the repo url and appending
`/blob/{branch}/{github_link}`, but only when the stripped url contains
`github.com`. -/
def formatSource (doc : Document) : SourceInfo :=
  let base : SourceInfo :=
    { content := doc.page_content, metadata := doc.metadata, github_url := none }
  if metaGet doc.metadata "source_type" = some (MVal.str "code") then
    match metaGet doc.metadata "github_link", metaGet doc.metadata "repo_url" with
    | some (MVal.str gl), some (MVal.str ru) =>
        if gl ≠ "" ∧ ru ≠ "" then
          let repo_url := strip_git ru
          let url := repo_url ++ "/blob/" ++ branchOf doc.metadata ++ "/" ++ gl
          if pyContains repo_url "github.com" then
            { base with github_url := some url }
          else base
        else base
    | _, _ => base
  else base

/-- The result dict of one `qa_chain.invoke` call: the generated `result`
text and the retrieved `source_documents`, each possibly absent. -/
structure QAResult where
  result : Option String
  source_documents : Option (List Document)

/-- The dict returned by `RAGPipeline.query`. -/
structure QueryResponse where
  answer : String
  source_documents : List SourceInfo
deriving DecidableEq, Repr

/-- Answer returned for a falsy (empty) question. -/
def noQuestionAnswer : String := "Veuillez fournir une question."

/-- Fallback answer returned when the QA chain raises. -/
def errorAnswer : String :=
  "Désolé, une erreur est survenue lors de la génération de la réponse."

/-- Default answer when the chain result has no `result` key. -/
def noAnswerGenerated : String := "Aucune réponse générée."

/-- `RAGPipeline.query`, with the retrieval-plus-generation backend (the
`qa_chain.invoke` call, whose construction and invocation sit inside the
`try` block) embedded as an `Except`: a falsy question short-circuits to a
canned response; a raised backend error is caught and mapped to the fixed
fallback response; otherwise the retrieved documents are formatted as
source references. -/
def query (query_text : String) (backend : Except String QAResult) :
    QueryResponse :=
  if query_text = "" then
    { answer := noQuestionAnswer, source_documents := [] }
  else
    match backend with
    | .error _ => { answer := errorAnswer, source_documents := [] }
    | .ok r =>
        { answer := r.result.getD noAnswerGenerated,
          source_documents := (r.source_documents.getD []).map formatSource }

/-- The metadata assembly of `RAGPipeline.process_document` for the chunks
of one ingested document: `texts` is the loader-plus-splitter output,
`generated_id` the uuid that `document_id or str(uuid.uuid4())` falls back
to when the supplied id is absent or falsy (empty).  Returns
the `final_metadata` list passed to the vector store: per chunk, a copy of
the base metadata (caller metadata overlaid with `document_id`,
`source = basename(path)` and `source_type = "document"`), updated with the
chunk text metadata, then with `chunk_index` set to the chunk position. -/
def process_document (file_path : String) (document_id : Option String)
    (generated_id : String) (metadata : Option Metadata)
    (texts : List Document) : List Metadata :=
  let doc_id := match document_id with
    | some s => if s = "" then generated_id else s
    | none => generated_id
  let base_metadata := metaUpdate (metadata.getD [])
    [("document_id", .str doc_id),
     ("source", .str (basename file_path)),
     ("source_type", .str "document")]
  texts.enum.map (fun it =>
    metaSet (metaUpdate base_metadata it.2.metadata) "chunk_index" (.nat it.1))

/-! ## Auxiliary predicates used by the statements -/

/-- Well-formedness of a node position as `ast.parse` guarantees it: when a
truthy `end_lineno` is present it is not smaller than `lineno`. -/
def lineOK (lineno : Nat) (end_lineno : Option Nat) : Bool :=
  match end_lineno with
  | none => true
  | some x => x = 0 || lineno ≤ x

mutual

/-- All positions in a statement (recursively) are well-formed. -/
def PyStmt.wf : PyStmt → Bool
  | .functionDef _ _ _ l e _ b => lineOK l e && PyStmt.wfList b
  | .classDef _ _ l e _ b => lineOK l e && PyStmt.wfList b
  | .assign _ l e => lineOK l e
  | .other cs => PyStmt.wfList cs

/-- All positions in a statement list (recursively) are well-formed. -/
def PyStmt.wfList : List PyStmt → Bool
  | [] => true
  | s :: ss => PyStmt.wf s && PyStmt.wfList ss

end

/-- The method kind named by one decorator, when it is a recognized
`ast.Name` (`staticmethod`, `classmethod` or `property`). -/
def decoKind : Deco → Option String
  | .name id =>
      if id = "staticmethod" then some "static_method"
      else if id = "classmethod" then some "class_method"
      else if id = "property" then some "property"
      else none
  | .other => none

/-- Whether a statement is a function definition. -/
def isFunctionDef : PyStmt → Bool
  | .functionDef _ _ _ _ _ _ _ => true
  | _ => false

/-- Whether a statement is a class definition. -/
def isClassDef : PyStmt → Bool
  | .classDef _ _ _ _ _ _ => true
  | _ => false

/-- Number of function definitions directly in a class body (0 for
non-class statements). -/
def directMethodCount : PyStmt → Nat
  | .classDef _ _ _ _ _ body => (directMethodNames body).length
  | _ => 0

/-- Whether a statement's class chunk can be built without raising: a class
definition none of whose bases is an `ast.Attribute` over a non-name (any
other statement kind trivially qualifies). -/
def classBasesOk : PyStmt → Bool
  | .classDef _ bases _ _ _ _ =>
      match collectBases bases with
      | .ok _ => true
      | .error _ => false
  | _ => true

/-- Number of chunks in a list whose `code_type` metadata equals `t`. -/
def countCodeType (docs : List Document) (t : String) : Nat :=
  docs.countP (fun d => metaGet d.metadata "code_type" = some (MVal.str t))

/-! ## Dictionary lemmas -/

theorem metaGet_metaSet_self (m : Metadata) (k : String) (v : MVal) :
    metaGet (metaSet m k v) k = some v := by
  induction m with
  | nil => simp [metaSet, metaGet]
  | cons kv rest ih =>
      obtain ⟨k0, v0⟩ := kv
      by_cases h : k0 = k
      · simp [metaSet, h, metaGet]
      · simp [metaSet, h, metaGet, ih]

theorem metaGet_metaSet_ne (m : Metadata) (k q : String) (v : MVal)
    (h : q ≠ k) : metaGet (metaSet m k v) q = metaGet m q := by
  induction m with
  | nil => simp [metaSet, metaGet, Ne.symm h]
  | cons kv rest ih =>
      obtain ⟨k0, v0⟩ := kv
      by_cases h0 : k0 = k
      · subst h0
        simp [metaSet, metaGet, Ne.symm h]
      · simp only [metaSet, if_neg h0, metaGet]
        by_cases h1 : k0 = q <;> simp [h1, ih]

theorem metaGet_eq_none_iff (u : Metadata) (q : String) :
    metaGet u q = none ↔ ∀ kv ∈ u, kv.1 ≠ q := by
  induction u with
  | nil => simp [metaGet]
  | cons kv rest ih =>
      obtain ⟨k0, v0⟩ := kv
      by_cases h : k0 = q <;> simp [metaGet, h, ih]

theorem metaUpdate_cons (d : Metadata) (kv : String × MVal) (u : Metadata) :
    metaUpdate d (kv :: u) = metaUpdate (metaSet d kv.1 kv.2) u := rfl

theorem metaGet_metaUpdate_of_none (d u : Metadata) (q : String)
    (h : metaGet u q = none) : metaGet (metaUpdate d u) q = metaGet d q := by
  induction u generalizing d with
  | nil => rfl
  | cons kv rest ih =>
      obtain ⟨k0, v0⟩ := kv
      by_cases h0 : k0 = q
      · simp [metaGet, h0] at h
      · simp only [metaGet, if_neg h0] at h
        rw [metaUpdate_cons, ih _ h, metaGet_metaSet_ne _ _ _ _ (Ne.symm h0)]

theorem metaGet_metaUpdate_of_some (d u : Metadata) (q : String) (v : MVal)
    (hn : (u.map Prod.fst).Nodup) (h : metaGet u q = some v) :
    metaGet (metaUpdate d u) q = some v := by
  induction u generalizing d with
  | nil => simp [metaGet] at h
  | cons kv rest ih =>
      obtain ⟨k0, v0⟩ := kv
      rw [metaUpdate_cons, List.map_cons] at *
      have hpair := List.nodup_cons.mp hn
      by_cases h0 : k0 = q
      · subst h0
        have h2 : v0 = v := by simpa [metaGet] using h
        have hrest : metaGet rest k0 = none := by
          rw [metaGet_eq_none_iff]
          intro kv2 hkv2 e
          exact hpair.1 (List.mem_map.mpr ⟨kv2, hkv2, e⟩)
        rw [metaGet_metaUpdate_of_none _ _ _ hrest]
        simp [metaGet_metaSet_self, h2]
      · simp only [metaGet, if_neg h0] at h
        exact ih (metaSet d k0 v0) hpair.2 h

/-! ## Decorator-scan lemmas -/

theorem decoStep_eq (acc : String) (d : Deco) :
    decoStep acc d = (decoKind d).getD acc := by
  cases d with
  | name id =>
      simp only [decoStep, decoKind]
      split_ifs <;> rfl
  | other => rfl

theorem foldl_decoStep (l : List Deco) (acc : String) :
    l.foldl decoStep acc = (l.reverse.findSome? decoKind).getD acc := by
  induction l generalizing acc with
  | nil => rfl
  | cons d t ih =>
      rw [List.foldl_cons, ih, List.reverse_cons, List.findSome?_append]
      cases hfind : t.reverse.findSome? decoKind with
      | some w => simp [Option.or]
      | none =>
          simp only [Option.or, Option.getD_none, List.findSome?_cons,
            List.findSome?_nil]
          rw [decoStep_eq]
          cases decoKind d <;> rfl

/-! ## Well-formedness propagation through the walk -/

theorem wfList_append (a b : List PyStmt) :
    PyStmt.wfList (a ++ b) = (PyStmt.wfList a && PyStmt.wfList b) := by
  induction a with
  | nil => simp [PyStmt.wfList]
  | cons s ss ih => simp [PyStmt.wfList, ih, Bool.and_assoc]

theorem wfList_mem {l : List PyStmt} {s : PyStmt}
    (h : PyStmt.wfList l = true) (hs : s ∈ l) : PyStmt.wf s = true := by
  induction l with
  | nil => cases hs
  | cons t ts ih =>
      simp only [PyStmt.wfList, Bool.and_eq_true] at h
      rcases List.mem_cons.mp hs with rfl | hs2
      · exact h.1
      · exact ih h.2 hs2

theorem wf_children {s : PyStmt} (h : PyStmt.wf s = true) :
    PyStmt.wfList s.children = true := by
  cases s with
  | functionDef n a dl l e ds b =>
      exact (Bool.and_eq_true .. |>.mp h).2
  | classDef n bs l e ds b =>
      exact (Bool.and_eq_true .. |>.mp h).2
  | assign t l e => rfl
  | other cs => exact h

theorem walk_wf (q : List PyStmt) (hq : PyStmt.wfList q = true) :
    ∀ s ∈ walkAux q, PyStmt.wf s = true := by
  induction q using walkAux.induct with
  | case1 => simp [walkAux]
  | case2 n rest ih =>
      simp only [PyStmt.wfList, Bool.and_eq_true] at hq
      intro s hs
      rw [walkAux] at hs
      rcases List.mem_cons.mp hs with rfl | hs2
      · exact hq.1
      · exact ih (by rw [wfList_append, hq.2, wf_children hq.1]; rfl) s hs2

/-! ## Counting chunks emitted by the walk -/

theorem countP_flatMap {α β : Type} (l : List α) (f : α → List β)
    (p : β → Bool) :
    (l.flatMap f).countP p = (l.map (fun a => (f a).countP p)).sum := by
  induction l with
  | nil => rfl
  | cons a t ih => simp [List.flatMap_cons, List.countP_append, ih]

/-! ## Metadata of the emitted chunks -/

theorem codeType_extract_function (n : String) (a : List String) (l : Nat)
    (e : Option Nat) (ds : Option String) (c fp rp : String) :
    metaGet (extract_function n a l e ds c fp rp).metadata "code_type" =
      some (MVal.str "function") := rfl

theorem codeType_extract_class_doc (n : String) (bn : List String) (l : Nat)
    (e : Option Nat) (ds : Option String) (body : List PyStmt)
    (c fp rp : String) :
    metaGet (extract_class_doc n bn l e ds body c fp rp).metadata
      "code_type" = some (MVal.str "class") := rfl

/-! ## Reductions of the emission loop -/

theorem emitFor_functionDef (c fp rp n : String) (args : List String)
    (dl : List Deco) (l : Nat) (e : Option Nat) (ds : Option String)
    (body : List PyStmt) :
    emitFor c fp rp (.functionDef n args dl l e ds body) =
      .ok [extract_function n args l e ds c fp rp] := rfl

theorem emitFor_classDef_ok {bases : List PyBase} {bn : List String}
    (hcb : collectBases bases = .ok bn) (c fp rp n : String) (l : Nat)
    (e : Option Nat) (ds : Option String) (body : List PyStmt) :
    emitFor c fp rp (.classDef n bases l e ds body) =
      .ok (extract_class_doc n bn l e ds body c fp rp ::
        body.filterMap (methodDocOf n c fp rp)) := by
  simp only [emitFor, extract_class, hcb]

theorem emitFor_classDef_err {bases : List PyBase} {u : Unit}
    (hcb : collectBases bases = .error u) (c fp rp n : String) (l : Nat)
    (e : Option Nat) (ds : Option String) (body : List PyStmt) :
    emitFor c fp rp (.classDef n bases l e ds body) = .error u := by
  simp only [emitFor, extract_class, hcb]

theorem emitFor_ok_of_classBasesOk {s : PyStmt}
    (h : classBasesOk s = true) (c fp rp : String) :
    emitFor c fp rp s = .ok (emitDocs c fp rp s) := by
  cases s with
  | functionDef n args dl l e ds body => rfl
  | classDef n bases l e ds body =>
      simp only [classBasesOk] at h
      cases hcb : collectBases bases with
      | ok bn =>
          simp only [emitDocs, emitFor_classDef_ok hcb]
      | error u => rw [hcb] at h; cases h
  | assign t l e => rfl
  | other cs => rfl

theorem emitAll_eq_flatMap (c fp rp : String) (q : List PyStmt)
    (h : ∀ s ∈ q, classBasesOk s = true) :
    emitAll c fp rp q = q.flatMap (fun s => emitDocs c fp rp s) := by
  induction q with
  | nil => rfl
  | cons s rest ih =>
      rw [List.flatMap_cons]
      simp only [emitAll,
        emitFor_ok_of_classBasesOk (h s (List.mem_cons_self s rest)) c fp rp]
      exact congrArg _ (ih (fun s2 hs2 => h s2 (List.mem_cons_of_mem s hs2)))

theorem mem_emitAll {c fp rp : String} {q : List PyStmt} {doc : Document}
    (h : doc ∈ emitAll c fp rp q) :
    ∃ s ∈ q, doc ∈ emitDocs c fp rp s := by
  induction q with
  | nil => cases h
  | cons s rest ih =>
      cases hef : emitFor c fp rp s with
      | ok docs =>
          simp only [emitAll, hef] at h
          rcases List.mem_append.mp h with h2 | h2
          · exact ⟨s, List.mem_cons_self s rest,
              by simp only [emitDocs, hef]; exact h2⟩
          · rcases ih h2 with ⟨s2, hs2, hd2⟩
            exact ⟨s2, List.mem_cons_of_mem s hs2, hd2⟩
      | error u => simp only [emitAll, hef] at h; cases h

/-- A class whose base is an `ast.Attribute` over a non-name raises while
its chunk is built, and the raise truncates the whole output: even the
function definition after it emits nothing. -/
theorem parse_truncates_on_attribute_base :
    parse_python_file (.ok
        [PyStmt.classDef "X" [PyBase.attrOther] 1 (some 2) none [],
         PyStmt.functionDef "f" [] [] 3 (some 4) none []])
      "class X(a.b.C):\n  pass\ndef f():\n  pass" "/repo/a.py" "a.py"
      = [] := by
  simp only [parse_python_file, walkAux, PyStmt.children, List.nil_append,
    List.append_nil, List.cons_append]
  decide

theorem codeType_extract_method (n : String) (a : List String)
    (dl : List Deco) (cn : String) (l : Nat) (e : Option Nat)
    (ds : Option String) (c fp rp : String) :
    metaGet (extract_method n a dl cn l e ds c fp rp).metadata "code_type" =
      some (MVal.str "method") := rfl

theorem get_line_numbers_le (l : Nat) (e : Option Nat)
    (h : lineOK l e = true) :
    (get_line_numbers l e).1 ≤ (get_line_numbers l e).2 := by
  cases e with
  | none => simp [get_line_numbers]
  | some x =>
      simp only [lineOK, Bool.or_eq_true, decide_eq_true_eq] at h
      simp only [get_line_numbers, Option.getD_some]
      split_ifs with hx
      · exact le_refl l
      · rcases h with h0 | hle
        · exact absurd h0 hx
        · exact hle

/-- The line-span and link invariant for every chunk a single walked node
contributes, assuming the node positions are well-formed. -/
theorem emitDocs_line_invariant (s : PyStmt) (c fp rp : String)
    (hwf : PyStmt.wf s = true) :
    ∀ doc ∈ emitDocs c fp rp s, ∃ a b,
      metaGet doc.metadata "start_line" = some (MVal.nat a) ∧
      metaGet doc.metadata "end_line" = some (MVal.nat b) ∧
      a ≤ b ∧
      metaGet doc.metadata "github_link" =
        some (MVal.str (rp ++ "#L" ++ toString a ++ "-L" ++ toString b)) := by
  cases s with
  | functionDef n args dl l e ds body =>
      intro doc hdoc
      rcases List.mem_singleton.mp hdoc with rfl
      have hline := (Bool.and_eq_true .. |>.mp hwf).1
      exact ⟨(get_line_numbers l e).1, (get_line_numbers l e).2,
        rfl, rfl, get_line_numbers_le l e hline, rfl⟩
  | classDef n bs l e ds body =>
      intro doc hdoc
      have hw := Bool.and_eq_true .. |>.mp hwf
      cases hcb : collectBases bs with
      | error u =>
          simp only [emitDocs, emitFor_classDef_err hcb] at hdoc
          cases hdoc
      | ok bn =>
          simp only [emitDocs, emitFor_classDef_ok hcb] at hdoc
          rcases List.mem_cons.mp hdoc with rfl | hdoc2
          · exact ⟨(get_line_numbers l e).1, (get_line_numbers l e).2,
              rfl, rfl, get_line_numbers_le l e hw.1, rfl⟩
          · rcases List.mem_filterMap.mp hdoc2 with ⟨item, hitem, hmatch⟩
            have hwitem : PyStmt.wf item = true := wfList_mem hw.2 hitem
            cases item with
            | functionDef mn margs mdl ml me mds mbody =>
                simp only [methodDocOf, Option.some.injEq] at hmatch
                subst hmatch
                have hline := (Bool.and_eq_true .. |>.mp hwitem).1
                exact ⟨(get_line_numbers ml me).1, (get_line_numbers ml me).2,
                  rfl, rfl, get_line_numbers_le ml me hline, rfl⟩
            | classDef a2 b2 c2 d2 e2 f2 => simp [methodDocOf] at hmatch
            | assign a2 b2 c2 => simp [methodDocOf] at hmatch
            | other a2 => simp [methodDocOf] at hmatch
  | assign t l e => intro doc hdoc; cases hdoc
  | other cs => intro doc hdoc; cases hdoc

/-! ## The method-kind classification, characterized -/

theorem method_type_extract_method (n : String) (args : List String)
    (dl : List Deco) (cn : String) (l : Nat) (e : Option Nat)
    (ds : Option String) (c fp rp : String) :
    metaGet (extract_method n args dl cn l e ds c fp rp).metadata
        "method_type" = some (MVal.str (method_type_of args dl)) := rfl

theorem method_type_of_spec (args : List String) (dl : List Deco) :
    method_type_of args dl =
      (if args.head? = some "self" then "instance_method"
       else if args.head? = some "cls" then "class_method"
       else (dl.reverse.findSome? decoKind).getD "instance_method") := by
  cases args with
  | nil => simp [method_type_of, foldl_decoStep]
  | cons a t =>
      simp only [method_type_of, List.head?_cons, Option.some.injEq]
      by_cases h1 : a = "self"
      · simp [h1]
      · by_cases h2 : a = "cls" <;> simp [h1, h2, foldl_decoStep]

/-! ## Per-node chunk counts -/

theorem methodDocs_codeType {body : List PyStmt} {n c fp rp : String}
    {d : Document} (hd : d ∈ body.filterMap (methodDocOf n c fp rp)) :
    metaGet d.metadata "code_type" = some (MVal.str "method") := by
  rcases List.mem_filterMap.mp hd with ⟨item, hitem, hmatch⟩
  cases item with
  | functionDef mn margs mdl ml me mds mbody =>
      simp only [methodDocOf, Option.some.injEq] at hmatch
      subst hmatch
      exact codeType_extract_method ..
  | classDef a2 b2 c2 d2 e2 f2 => simp [methodDocOf] at hmatch
  | assign a2 b2 c2 => simp [methodDocOf] at hmatch
  | other a2 => simp [methodDocOf] at hmatch

theorem directMethodNames_cons (s : PyStmt) (t : List PyStmt) :
    directMethodNames (s :: t) =
      (match s with
       | PyStmt.functionDef mn _ _ _ _ _ _ => mn :: directMethodNames t
       | _ => directMethodNames t) := by
  cases s <;> simp [directMethodNames, List.filterMap_cons]

theorem methodDocs_length (body : List PyStmt) (n c fp rp : String) :
    (body.filterMap (methodDocOf n c fp rp)).length =
      (directMethodNames body).length := by
  induction body with
  | nil => rfl
  | cons s t ih =>
      cases s <;>
        simp [methodDocOf, List.filterMap_cons, directMethodNames_cons, ih]

theorem countFn_emitDocs (c fp rp : String) (s : PyStmt)
    (hok : classBasesOk s = true) :
    countCodeType (emitDocs c fp rp s) "function" =
      if isFunctionDef s then 1 else 0 := by
  cases s with
  | functionDef n args dl l e ds body =>
      simp [emitDocs, emitFor, countCodeType, List.countP_cons,
        codeType_extract_function, isFunctionDef]
  | classDef n bs l e ds body =>
      simp only [classBasesOk] at hok
      cases hcb : collectBases bs with
      | error u => rw [hcb] at hok; cases hok
      | ok bn =>
          have hz : List.countP
              (fun d => metaGet d.metadata "code_type"
                = some (MVal.str "function"))
              (body.filterMap (methodDocOf n c fp rp)) = 0 := by
            rw [List.countP_eq_zero]
            intro a ha
            simp [methodDocs_codeType ha]
          simp [emitDocs, emitFor_classDef_ok hcb, countCodeType,
            List.countP_cons, codeType_extract_class_doc, isFunctionDef, hz]
  | assign t l e => rfl
  | other cs => rfl

theorem countClass_emitDocs (c fp rp : String) (s : PyStmt)
    (hok : classBasesOk s = true) :
    countCodeType (emitDocs c fp rp s) "class" =
      if isClassDef s then 1 else 0 := by
  cases s with
  | functionDef n args dl l e ds body =>
      simp [emitDocs, emitFor, countCodeType, List.countP_cons,
        codeType_extract_function, isClassDef]
  | classDef n bs l e ds body =>
      simp only [classBasesOk] at hok
      cases hcb : collectBases bs with
      | error u => rw [hcb] at hok; cases hok
      | ok bn =>
          have hz : List.countP
              (fun d => metaGet d.metadata "code_type"
                = some (MVal.str "class"))
              (body.filterMap (methodDocOf n c fp rp)) = 0 := by
            rw [List.countP_eq_zero]
            intro a ha
            simp [methodDocs_codeType ha]
          simp [emitDocs, emitFor_classDef_ok hcb, countCodeType,
            List.countP_cons, codeType_extract_class_doc, isClassDef, hz]
  | assign t l e => rfl
  | other cs => rfl

theorem countMethod_emitDocs (c fp rp : String) (s : PyStmt)
    (hok : classBasesOk s = true) :
    countCodeType (emitDocs c fp rp s) "method" = directMethodCount s := by
  cases s with
  | functionDef n args dl l e ds body =>
      simp [emitDocs, emitFor, countCodeType, List.countP_cons,
        codeType_extract_function, directMethodCount]
  | classDef n bs l e ds body =>
      simp only [classBasesOk] at hok
      cases hcb : collectBases bs with
      | error u => rw [hcb] at hok; cases hok
      | ok bn =>
          have hl : List.countP
              (fun d => metaGet d.metadata "code_type"
                = some (MVal.str "method"))
              (body.filterMap (methodDocOf n c fp rp)) =
                (body.filterMap (methodDocOf n c fp rp)).length := by
            rw [List.countP_eq_length]
            intro a ha
            simp [methodDocs_codeType ha]
          simp [emitDocs, emitFor_classDef_ok hcb, countCodeType,
            List.countP_cons, codeType_extract_class_doc, directMethodCount,
            hl, methodDocs_length]
  | assign t l e => rfl
  | other cs => rfl

theorem sum_if_count (ns : List PyStmt) (p : PyStmt → Bool) :
    (ns.map (fun s => if p s then 1 else 0)).sum = (ns.filter p).length := by
  induction ns with
  | nil => rfl
  | cons s t ih =>
      by_cases h : p s
      · simp [List.filter_cons, h, ih, Nat.add_comm]
      · simp [List.filter_cons, h, ih]

theorem countCodeType_parse_ok (tree : List PyStmt) (c fp rp t : String)
    (hok : ∀ s ∈ walkAux tree, classBasesOk s = true) :
    countCodeType (parse_python_file (.ok tree) c fp rp) t =
      ((walkAux tree).map
        (fun s => countCodeType (emitDocs c fp rp s) t)).sum := by
  simp only [parse_python_file]
  rw [emitAll_eq_flatMap c fp rp (walkAux tree) hok]
  simp only [countCodeType, countP_flatMap]

/-- Every chunk a walked node contributes carries the four positional
metadata keys. -/
theorem emitDocs_keys (s : PyStmt) (c fp rp : String) :
    ∀ doc ∈ emitDocs c fp rp s,
      (metaGet doc.metadata "start_line").isSome ∧
      (metaGet doc.metadata "end_line").isSome ∧
      (metaGet doc.metadata "github_link").isSome ∧
      (metaGet doc.metadata "has_docstring").isSome := by
  cases s with
  | functionDef n args dl l e ds body =>
      intro doc hdoc
      rcases List.mem_singleton.mp hdoc with rfl
      exact ⟨rfl, rfl, rfl, rfl⟩
  | classDef n bs l e ds body =>
      intro doc hdoc
      cases hcb : collectBases bs with
      | error u =>
          simp only [emitDocs, emitFor_classDef_err hcb] at hdoc
          cases hdoc
      | ok bn =>
          simp only [emitDocs, emitFor_classDef_ok hcb] at hdoc
          rcases List.mem_cons.mp hdoc with rfl | hdoc2
          · exact ⟨rfl, rfl, rfl, rfl⟩
          · rcases List.mem_filterMap.mp hdoc2 with ⟨item, hitem, hmatch⟩
            cases item with
            | functionDef mn margs mdl ml me mds mbody =>
                simp only [methodDocOf, Option.some.injEq] at hmatch
                subst hmatch
                exact ⟨rfl, rfl, rfl, rfl⟩
            | classDef a2 b2 c2 d2 e2 f2 => simp [methodDocOf] at hmatch
            | assign a2 b2 c2 => simp [methodDocOf] at hmatch
            | other a2 => simp [methodDocOf] at hmatch
  | assign t l e => intro doc hdoc; cases hdoc
  | other cs => intro doc hdoc; cases hdoc

/-- Reading back the three fields that `process_document` assigns into the
base metadata. -/
theorem metaGet_metaUpdate_triple (d : Metadata) (v1 v2 v3 : MVal) :
    metaGet (metaUpdate d [("document_id", v1), ("source", v2),
      ("source_type", v3)]) "document_id" = some v1 ∧
    metaGet (metaUpdate d [("document_id", v1), ("source", v2),
      ("source_type", v3)]) "source" = some v2 ∧
    metaGet (metaUpdate d [("document_id", v1), ("source", v2),
      ("source_type", v3)]) "source_type" = some v3 := by
  have e1 : metaUpdate d [("document_id", v1), ("source", v2),
      ("source_type", v3)] =
      metaSet (metaSet (metaSet d "document_id" v1) "source" v2)
        "source_type" v3 := rfl
  refine ⟨?_, ?_, ?_⟩
  · rw [e1, metaGet_metaSet_ne _ "source_type" "document_id" _ (by decide),
      metaGet_metaSet_ne _ "source" "document_id" _ (by decide),
      metaGet_metaSet_self]
  · rw [e1, metaGet_metaSet_ne _ "source_type" "source" _ (by decide),
      metaGet_metaSet_self]
  · rw [e1, metaGet_metaSet_self]

/-! ## The claims -/

/-- C1, counterexample: parsing a file whose content raises a syntax error
yields one chunk whose `code_type` metadata is `"python_file"`, not
`"file_fallback"` as the claim states. -/
theorem claim1_counterexample :
    (parse_python_file (.error "invalid syntax (a.py, line 1)") "x ="
        "/repo/a.py" "a.py").map (fun d => metaGet d.metadata "code_type") =
      [some (MVal.str "python_file")] ∧
    MVal.str "python_file" ≠ MVal.str "file_fallback" := by
  exact ⟨rfl, by decide⟩

/-- C1, amended: for every syntax-error outcome (whose description, a Python
`str(SyntaxError)`, is non-empty), `parse_python_file` returns exactly one
chunk; its `code_type` metadata is `"python_file"`, its `parsing_error`
metadata is the non-empty failure description, and its text is the file's
full content. -/
theorem claim1_fallback_chunk (msg content file_path relative_path : String)
    (hmsg : msg ≠ "") :
    ∃ d, parse_python_file (.error msg) content file_path relative_path = [d] ∧
      metaGet d.metadata "code_type" = some (MVal.str "python_file") ∧
      (∃ e, metaGet d.metadata "parsing_error" = some (MVal.str e) ∧ e ≠ "") ∧
      d.page_content = content := by
  exact ⟨_, rfl, rfl, ⟨msg, rfl, hmsg⟩, rfl⟩

/-- C1, witness: the amended fallback behavior at a concrete syntax error. -/
theorem claim1_witness :
    ∃ d, parse_python_file (.error "invalid syntax") "x =" "/repo/a.py"
        "a.py" = [d] ∧
      metaGet d.metadata "code_type" = some (MVal.str "python_file") ∧
      (∃ e, metaGet d.metadata "parsing_error" = some (MVal.str e) ∧ e ≠ "") ∧
      d.page_content = "x =" :=
  claim1_fallback_chunk "invalid syntax" "x =" "/repo/a.py" "a.py" (by decide)

/-- C2, counterexample: a method decorated `@staticmethod` whose first
parameter is named `self` is classified `instance_method`, not
`static_method` — the first-parameter checks run before the decorator
checks. -/
theorem claim2_counterexample :
    metaGet (extract_method "m" ["self"] [Deco.name "staticmethod"] "C" 1
        (some 2) none "class C: ..." "/repo/a.py" "a.py").metadata
        "method_type" = some (MVal.str "instance_method") ∧
    MVal.str "instance_method" ≠ MVal.str "static_method" := by
  exact ⟨rfl, by decide⟩

/-- C2, amended: the method-kind classification checks the first parameter
name first — `self` gives `instance_method` and `cls` gives `class_method`
regardless of decorators; only otherwise are the decorators scanned, the
last recognized one (`staticmethod`/`classmethod`/`property`) winning, with
default `instance_method`. -/
theorem claim2_method_kind (n : String) (args : List String) (dl : List Deco)
    (cn : String) (l : Nat) (e : Option Nat) (ds : Option String)
    (c fp rp : String) :
    metaGet (extract_method n args dl cn l e ds c fp rp).metadata
        "method_type" =
      some (MVal.str
        (if args.head? = some "self" then "instance_method"
         else if args.head? = some "cls" then "class_method"
         else (dl.reverse.findSome? decoKind).getD "instance_method")) := by
  rw [method_type_extract_method, method_type_of_spec]

/-- C3, counterexample: a file with one class containing one method yields
three chunks — the walk reaches the method node again and also emits a
`function` chunk for it, contradicting the claim that a class-body function
never yields an additional function chunk. -/
theorem claim3_counterexample :
    (parse_python_file (.ok [PyStmt.classDef "C" [] 1 (some 3) none
        [PyStmt.functionDef "m" ["self"] [] 2 (some 3) none []]])
      "class C:\n  def m(self):\n    pass" "/repo/a.py" "a.py").length = 3 ∧
    countCodeType (parse_python_file (.ok [PyStmt.classDef "C" [] 1 (some 3)
        none [PyStmt.functionDef "m" ["self"] [] 2 (some 3) none []]])
      "class C:\n  def m(self):\n    pass" "/repo/a.py" "a.py") "function"
      = 1 ∧
    countCodeType (parse_python_file (.ok [PyStmt.classDef "C" [] 1 (some 3)
        none [PyStmt.functionDef "m" ["self"] [] 2 (some 3) none []]])
      "class C:\n  def m(self):\n    pass" "/repo/a.py" "a.py") "method"
      = 1 := by
  refine ⟨?_, ?_, ?_⟩ <;>
    · simp only [parse_python_file, walkAux, PyStmt.children,
        List.nil_append, List.append_nil, List.cons_append]
      decide

/-- C3, amended: provided no walked class definition has a base that is an
`ast.Attribute` over a non-name (which would raise `AttributeError` in
`_extract_class` and truncate the output), every function definition
reached by the walk — including functions in class bodies and functions
nested inside other functions — yields a `function` chunk, so the number of
`function` chunks equals the number of walked `FunctionDef` nodes;
additionally one `method` chunk is emitted per function directly in a
walked class body, and one `class` chunk per walked class definition. -/
theorem claim3_chunk_counts (tree : List PyStmt) (c fp rp : String)
    (hok : ∀ s ∈ walkAux tree, classBasesOk s = true) :
    countCodeType (parse_python_file (.ok tree) c fp rp) "function" =
        ((walkAux tree).filter isFunctionDef).length ∧
    countCodeType (parse_python_file (.ok tree) c fp rp) "method" =
        ((walkAux tree).map directMethodCount).sum ∧
    countCodeType (parse_python_file (.ok tree) c fp rp) "class" =
        ((walkAux tree).filter isClassDef).length := by
  refine ⟨?_, ?_, ?_⟩
  · rw [countCodeType_parse_ok tree c fp rp _ hok, ← sum_if_count]
    congr 1
    exact List.map_congr_left (fun s hs => countFn_emitDocs c fp rp s (hok s hs))
  · rw [countCodeType_parse_ok tree c fp rp _ hok]
    congr 1
    exact List.map_congr_left
      (fun s hs => countMethod_emitDocs c fp rp s (hok s hs))
  · rw [countCodeType_parse_ok tree c fp rp _ hok, ← sum_if_count]
    congr 1
    exact List.map_congr_left
      (fun s hs => countClass_emitDocs c fp rp s (hok s hs))

/-- C3, witness: the amended counts at the concrete one-class one-method
file, whose class has no bases. -/
theorem claim3_witness :
    countCodeType (parse_python_file (.ok [PyStmt.classDef "C" [] 1 (some 3)
        none [PyStmt.functionDef "m" ["self"] [] 2 (some 3) none []]])
      "class C:\n  def m(self):\n    pass" "/repo/a.py" "a.py") "function" =
        ((walkAux [PyStmt.classDef "C" [] 1 (some 3) none
          [PyStmt.functionDef "m" ["self"] [] 2 (some 3) none []]]).filter
            isFunctionDef).length ∧
    countCodeType (parse_python_file (.ok [PyStmt.classDef "C" [] 1 (some 3)
        none [PyStmt.functionDef "m" ["self"] [] 2 (some 3) none []]])
      "class C:\n  def m(self):\n    pass" "/repo/a.py" "a.py") "method" =
        ((walkAux [PyStmt.classDef "C" [] 1 (some 3) none
          [PyStmt.functionDef "m" ["self"] [] 2 (some 3) none []]]).map
            directMethodCount).sum ∧
    countCodeType (parse_python_file (.ok [PyStmt.classDef "C" [] 1 (some 3)
        none [PyStmt.functionDef "m" ["self"] [] 2 (some 3) none []]])
      "class C:\n  def m(self):\n    pass" "/repo/a.py" "a.py") "class" =
        ((walkAux [PyStmt.classDef "C" [] 1 (some 3) none
          [PyStmt.functionDef "m" ["self"] [] 2 (some 3) none []]]).filter
            isClassDef).length :=
  claim3_chunk_counts
    [PyStmt.classDef "C" [] 1 (some 3) none
      [PyStmt.functionDef "m" ["self"] [] 2 (some 3) none []]]
    "class C:\n  def m(self):\n    pass" "/repo/a.py" "a.py"
    (by
      simp only [walkAux, PyStmt.children, List.nil_append, List.append_nil,
        List.cons_append]
      decide)

/-- C6: every code chunk produced from a successfully parsed tree with
well-formed node positions carries `start_line ≤ end_line` and a
`github_link` equal to `{relative_path}#L{start_line}-L{end_line}`. -/
theorem claim6_line_span_and_link (tree : List PyStmt)
    (content file_path relative_path : String)
    (hwf : PyStmt.wfList tree = true) :
    ∀ doc ∈ parse_python_file (.ok tree) content file_path relative_path,
      ∃ a b,
        metaGet doc.metadata "start_line" = some (MVal.nat a) ∧
        metaGet doc.metadata "end_line" = some (MVal.nat b) ∧
        a ≤ b ∧
        metaGet doc.metadata "github_link" =
          some (MVal.str (relative_path ++ "#L" ++ toString a ++ "-L"
            ++ toString b)) := by
  intro doc hdoc
  simp only [parse_python_file] at hdoc
  rcases mem_emitAll hdoc with ⟨s, hs, hdoc2⟩
  exact emitDocs_line_invariant s content file_path relative_path
    (walk_wf tree hwf s hs) doc hdoc2

/-- C6, witness: the span/link invariant at a concrete one-function file. -/
theorem claim6_witness :
    ∃ a b,
      metaGet (extract_function "f" [] 1 (some 2) none "def f():\n  pass"
          "/repo/a.py" "a.py").metadata "start_line" = some (MVal.nat a) ∧
      metaGet (extract_function "f" [] 1 (some 2) none "def f():\n  pass"
          "/repo/a.py" "a.py").metadata "end_line" = some (MVal.nat b) ∧
      a ≤ b ∧
      metaGet (extract_function "f" [] 1 (some 2) none "def f():\n  pass"
          "/repo/a.py" "a.py").metadata "github_link" =
        some (MVal.str ("a.py" ++ "#L" ++ toString a ++ "-L"
          ++ toString b)) :=
  claim6_line_span_and_link [PyStmt.functionDef "f" [] [] 1 (some 2) none []]
    "def f():\n  pass" "/repo/a.py" "a.py" (by decide)
    (extract_function "f" [] 1 (some 2) none "def f():\n  pass" "/repo/a.py"
      "a.py")
    (by simp [parse_python_file, walkAux, PyStmt.children, emitAll, emitFor])

/-- C7: every chunk of `code_type = "class"` arises from a walked class
definition node, names that class, and its `methods` metadata lists, in
source order, the names of the function definitions directly in that
class's body. -/
theorem claim7_class_methods (tree : List PyStmt) (c fp rp : String) :
    ∀ doc ∈ parse_python_file (.ok tree) c fp rp,
      metaGet doc.metadata "code_type" = some (MVal.str "class") →
        ∃ n bs l e ds body,
          PyStmt.classDef n bs l e ds body ∈ walkAux tree ∧
          metaGet doc.metadata "class_name" = some (MVal.str n) ∧
          metaGet doc.metadata "methods" =
            some (MVal.strList (directMethodNames body)) := by
  intro doc hdoc hclass
  simp only [parse_python_file] at hdoc
  rcases mem_emitAll hdoc with ⟨s, hs, hdoc2⟩
  cases s with
  | functionDef n args dl l e ds body =>
      rcases List.mem_singleton.mp hdoc2 with rfl
      rw [codeType_extract_function] at hclass
      exact absurd hclass (by decide)
  | classDef n bs l e ds body =>
      cases hcb : collectBases bs with
      | error u =>
          simp only [emitDocs, emitFor_classDef_err hcb] at hdoc2
          cases hdoc2
      | ok bn =>
          simp only [emitDocs, emitFor_classDef_ok hcb] at hdoc2
          rcases List.mem_cons.mp hdoc2 with rfl | hdoc3
          · exact ⟨n, bs, l, e, ds, body, hs, rfl, rfl⟩
          · have hm := methodDocs_codeType hdoc3
            exact absurd (hm.symm.trans hclass) (by decide)
  | assign t2 l e => cases hdoc2
  | other cs => cases hdoc2

/-- C7, witness: the `methods` metadata at a concrete one-class file. -/
theorem claim7_witness :
    ∃ n bs l e ds body,
      PyStmt.classDef n bs l e ds body ∈
        walkAux [PyStmt.classDef "C" [] 1 (some 3) none
          [PyStmt.functionDef "m" ["self"] [] 2 (some 3) none []]] ∧
      metaGet (extract_class_doc "C" [] 1 (some 3) none
          [PyStmt.functionDef "m" ["self"] [] 2 (some 3) none []]
          "class C:\n  def m(self):\n    pass" "/repo/a.py" "a.py").metadata
        "class_name" = some (MVal.str n) ∧
      metaGet (extract_class_doc "C" [] 1 (some 3) none
          [PyStmt.functionDef "m" ["self"] [] 2 (some 3) none []]
          "class C:\n  def m(self):\n    pass" "/repo/a.py" "a.py").metadata
        "methods" = some (MVal.strList (directMethodNames body)) :=
  claim7_class_methods
    [PyStmt.classDef "C" [] 1 (some 3) none
      [PyStmt.functionDef "m" ["self"] [] 2 (some 3) none []]]
    "class C:\n  def m(self):\n    pass" "/repo/a.py" "a.py"
    (extract_class_doc "C" [] 1 (some 3) none
      [PyStmt.functionDef "m" ["self"] [] 2 (some 3) none []]
      "class C:\n  def m(self):\n    pass" "/repo/a.py" "a.py")
    (by simp [parse_python_file, walkAux, PyStmt.children,
      List.nil_append, List.append_nil, List.cons_append, emitAll, emitFor,
      extract_class, collectBases])
    rfl

/-- C10: the syntax-error fallback chunk carries exactly the metadata keys
`source`, `relative_path`, `source_type`, `code_type` and `parsing_error`,
while every chunk of a successfully parsed file carries `start_line`,
`end_line`, `github_link` and `has_docstring` metadata. -/
theorem claim10_metadata_keys (content file_path relative_path msg : String) :
    (parse_python_file (.error msg) content file_path relative_path).map
        (fun d => d.metadata.map Prod.fst) =
      [["source", "relative_path", "source_type", "code_type",
        "parsing_error"]] ∧
    ∀ (tree : List PyStmt) (doc : Document),
      doc ∈ parse_python_file (.ok tree) content file_path relative_path →
        (metaGet doc.metadata "start_line").isSome ∧
        (metaGet doc.metadata "end_line").isSome ∧
        (metaGet doc.metadata "github_link").isSome ∧
        (metaGet doc.metadata "has_docstring").isSome := by
  constructor
  · rfl
  · intro tree doc hdoc
    simp only [parse_python_file] at hdoc
    rcases mem_emitAll hdoc with ⟨s, hs, hdoc2⟩
    exact emitDocs_keys s content file_path relative_path doc hdoc2

/-- C10, witness: the positional keys at a concrete one-function file. -/
theorem claim10_witness :
    (metaGet (extract_function "f" [] 1 (some 2) none "def f():\n  pass"
        "/repo/b.py" "b.py").metadata "start_line").isSome ∧
    (metaGet (extract_function "f" [] 1 (some 2) none "def f():\n  pass"
        "/repo/b.py" "b.py").metadata "end_line").isSome ∧
    (metaGet (extract_function "f" [] 1 (some 2) none "def f():\n  pass"
        "/repo/b.py" "b.py").metadata "github_link").isSome ∧
    (metaGet (extract_function "f" [] 1 (some 2) none "def f():\n  pass"
        "/repo/b.py" "b.py").metadata "has_docstring").isSome :=
  (claim10_metadata_keys "def f():\n  pass" "/repo/b.py" "b.py"
      "invalid syntax").2
    [PyStmt.functionDef "f" [] [] 1 (some 2) none []]
    (extract_function "f" [] 1 (some 2) none "def f():\n  pass" "/repo/b.py"
      "b.py")
    (by simp [parse_python_file, walkAux, PyStmt.children, emitAll, emitFor])

/-- C4: for a retrieved code chunk carrying truthy `github_link` and
`repo_url` metadata, the absolute link is `{repo_url minus trailing
.git}/blob/{branch, defaulting to main}/{github_link}` exactly when the
stripped url is recognized (contains `github.com`), and is omitted
otherwise; in particular the concrete example of the claim holds. -/
theorem claim4_github_link (doc : Document) (gl ru : String)
    (h1 : metaGet doc.metadata "source_type" = some (MVal.str "code"))
    (h2 : metaGet doc.metadata "github_link" = some (MVal.str gl))
    (h3 : gl ≠ "")
    (h4 : metaGet doc.metadata "repo_url" = some (MVal.str ru))
    (h5 : ru ≠ "") :
    (formatSource doc).github_url =
      (if pyContains (strip_git ru) "github.com" = true then
        some (strip_git ru ++ "/blob/" ++ branchOf doc.metadata ++ "/" ++ gl)
       else none) ∧
    (formatSource
        { page_content := "retrieved code",
          metadata := [("source_type", MVal.str "code"),
            ("github_link", MVal.str "pkg/mod.py#L5-L9"),
            ("repo_url", MVal.str "https://github.com/org/repo.git"),
            ("branch", MVal.str "main")] }).github_url =
      some "https://github.com/org/repo/blob/main/pkg/mod.py#L5-L9" := by
  constructor
  · simp only [formatSource, h1, h2, h4, if_pos rfl]
    simp only [if_pos (And.intro h3 h5)]
    by_cases hc : pyContains (strip_git ru) "github.com" = true <;>
      simp [hc]
  · decide

/-- C4, witness: the link reconstruction at the concrete example chunk. -/
theorem claim4_witness :
    (formatSource
        { page_content := "retrieved code",
          metadata := [("source_type", MVal.str "code"),
            ("github_link", MVal.str "pkg/mod.py#L5-L9"),
            ("repo_url", MVal.str "https://github.com/org/repo.git"),
            ("branch", MVal.str "main")] }).github_url =
      (if pyContains (strip_git "https://github.com/org/repo.git")
          "github.com" = true then
        some (strip_git "https://github.com/org/repo.git" ++ "/blob/"
          ++ branchOf [("source_type", MVal.str "code"),
            ("github_link", MVal.str "pkg/mod.py#L5-L9"),
            ("repo_url", MVal.str "https://github.com/org/repo.git"),
            ("branch", MVal.str "main")] ++ "/" ++ "pkg/mod.py#L5-L9")
       else none) :=
  (claim4_github_link
    { page_content := "retrieved code",
      metadata := [("source_type", MVal.str "code"),
        ("github_link", MVal.str "pkg/mod.py#L5-L9"),
        ("repo_url", MVal.str "https://github.com/org/repo.git"),
        ("branch", MVal.str "main")] }
    "pkg/mod.py#L5-L9" "https://github.com/org/repo.git"
    rfl rfl (by decide) rfl (by decide)).1

/-- C5: when the retrieval/generation backend raises on a non-empty
question, `query` returns the fixed fallback answer with an empty source
list instead of propagating the error. -/
theorem claim5_error_fallback (q err : String) (hq : q ≠ "") :
    query q (.error err) =
      { answer := errorAnswer, source_documents := [] } := by
  simp [query, hq]

/-- C5, witness: the fallback at a concrete failing backend call. -/
theorem claim5_witness :
    query "Que fait ce code ?" (.error "connection refused") =
      { answer := errorAnswer, source_documents := [] } :=
  claim5_error_fallback "Que fait ce code ?" "connection refused" (by decide)

/-- C8, counterexample: a whitespace-only question is truthy, so `query`
does invoke the backend — with a successful backend it returns the
backend's answer, and with a failing backend the error fallback; neither is
the canned no-question answer the claim requires. -/
theorem claim8_counterexample :
    (query " " (.ok { result := some "A", source_documents := some [] })).answer
      = "A" ∧
    (query " " (.error "backend failure")).answer = errorAnswer ∧
    "A" ≠ noQuestionAnswer ∧
    errorAnswer ≠ noQuestionAnswer := by
  exact ⟨rfl, rfl, by decide, by decide⟩

/-- C8, amended: only the exactly-empty question string short-circuits:
`query` then returns the canned no-question answer and an empty source
list for every backend — the backend is never consulted. -/
theorem claim8_empty_question (backend : Except String QAResult) :
    query "" backend =
      { answer := noQuestionAnswer, source_documents := [] } := rfl

/-- C9, counterexample: the chunk metadata merge applies the loader
metadata after the base metadata, so a loader-provided `source` (the full
path, as LangChain loaders emit) overwrites `source = basename(path)` —
the chunk does not carry the basename the claim requires. -/
theorem claim9_counterexample :
    (process_document "/tmp/a.txt" (some "doc1") "gen" none
        [{ page_content := "hello",
           metadata := [("source", MVal.str "/tmp/a.txt")] }]).map
      (fun m => metaGet m "source") = [some (MVal.str "/tmp/a.txt")] ∧
    basename "/tmp/a.txt" = "a.txt" ∧
    MVal.str "/tmp/a.txt" ≠ MVal.str "a.txt" := by
  exact ⟨by decide, by decide, by decide⟩

/-- C9, amended: every chunk of an ingested document carries a sequential
0-based `chunk_index`; when the supplied `document_id` is truthy
(non-empty — a falsy id is replaced by the generated uuid, as
`document_id or str(uuid.uuid4())`), the chunk carries it, and it carries
`source = basename(path)` and `source_type = "document"` whenever the
loader's own chunk metadata does not itself bind those keys — the merge
order is base metadata first, loader metadata afterwards, so
loader-provided fields always survive (and win on conflicts), and
`chunk_index` is set last. -/
theorem claim9_chunk_metadata (file_path did gid : String)
    (hdid : did ≠ "")
    (meta : Option Metadata) (texts : List Document)
    (i : Nat) (t : Document) (ht : texts[i]? = some t) :
    ∃ m, (process_document file_path (some did) gid meta texts)[i]?
        = some m ∧
      metaGet m "chunk_index" = some (MVal.nat i) ∧
      (metaGet t.metadata "document_id" = none →
        metaGet m "document_id" = some (MVal.str did)) ∧
      (metaGet t.metadata "source" = none →
        metaGet m "source" = some (MVal.str (basename file_path))) ∧
      (metaGet t.metadata "source_type" = none →
        metaGet m "source_type" = some (MVal.str "document")) ∧
      ((t.metadata.map Prod.fst).Nodup →
        ∀ k v, metaGet t.metadata k = some v → k ≠ "chunk_index" →
          metaGet m k = some v) := by
  refine ⟨metaSet (metaUpdate (metaUpdate (meta.getD [])
      [("document_id", MVal.str did),
       ("source", MVal.str (basename file_path)),
       ("source_type", MVal.str "document")]) t.metadata)
      "chunk_index" (MVal.nat i), ?_, ?_, ?_, ?_, ?_, ?_⟩
  · simp only [process_document, if_neg hdid]
    rw [List.getElem?_map, List.getElem?_enum, ht]
    rfl
  · exact metaGet_metaSet_self ..
  · intro h
    rw [metaGet_metaSet_ne _ "chunk_index" "document_id" _ (by decide),
      metaGet_metaUpdate_of_none _ _ _ h]
    exact (metaGet_metaUpdate_triple (meta.getD []) _ _ _).1
  · intro h
    rw [metaGet_metaSet_ne _ "chunk_index" "source" _ (by decide),
      metaGet_metaUpdate_of_none _ _ _ h]
    exact (metaGet_metaUpdate_triple (meta.getD []) _ _ _).2.1
  · intro h
    rw [metaGet_metaSet_ne _ "chunk_index" "source_type" _ (by decide),
      metaGet_metaUpdate_of_none _ _ _ h]
    exact (metaGet_metaUpdate_triple (meta.getD []) _ _ _).2.2
  · intro hn k v hk hkc
    rw [metaGet_metaSet_ne _ "chunk_index" k _ hkc]
    exact metaGet_metaUpdate_of_some _ _ _ _ hn hk

/-- C9, witness: the amended metadata guarantees at a concrete one-chunk
document whose loader metadata binds only `page`. -/
theorem claim9_witness :
    ∃ m, (process_document "/tmp/a.txt" (some "doc1") "gen" none
        [{ page_content := "hello",
           metadata := [("page", MVal.nat 2)] }])[0]? = some m ∧
      metaGet m "chunk_index" = some (MVal.nat 0) ∧
      (metaGet [("page", MVal.nat 2)] "document_id" = none →
        metaGet m "document_id" = some (MVal.str "doc1")) ∧
      (metaGet [("page", MVal.nat 2)] "source" = none →
        metaGet m "source" = some (MVal.str (basename "/tmp/a.txt"))) ∧
      (metaGet [("page", MVal.nat 2)] "source_type" = none →
        metaGet m "source_type" = some (MVal.str "document")) ∧
      ((([("page", MVal.nat 2)] : Metadata).map Prod.fst).Nodup →
        ∀ k v, metaGet [("page", MVal.nat 2)] k = some v →
          k ≠ "chunk_index" → metaGet m k = some v) :=
  claim9_chunk_metadata "/tmp/a.txt" "doc1" "gen" (by decide) none
    [{ page_content := "hello", metadata := [("page", MVal.nat 2)] }]
    0 { page_content := "hello", metadata := [("page", MVal.nat 2)] } rfl

end DocAI
